import Mathlib

/-!
Verification development for `64byteToBase58.py`, a Base58 encoder for
64-byte values using the Bitcoin/Solana alphabet.

The Python program is embedded shallowly:

* `encode_base58` operates on the list of byte values.  In the Python code
  the byte list is a list of two-digit lowercase hex strings and every
  arithmetic step first converts an element with `int(x, 16)`; here a byte
  is represented directly by its numeric value in `[0, 255]`, the value the
  hex string denotes.  `int.from_bytes(..., byteorder='big')` is embedded
  as the big-endian Horner fold over those values.
* the input-validation layer (`parse_input`) is embedded over `List Char`,
  with explicit models of the Python string operations it uses
  (`str.strip` over the six ASCII whitespace characters, bracket removal,
  `str.split(",")`, `int(s)` / `int(s, 16)` with optional sign, optional
  `0x`/`0X` prefix for base 16, and single underscores between digits).
  A call to `sys.exit(1)` after printing an error message is embedded as
  an `Except.error` carrying the kind of error and the offending data.
-/

set_option maxRecDepth 10000

/-- Solana (and Bitcoin) Base58 alphabet (source line 5). -/
def BASE58_ALPHABET : String :=
  "123456789ABCDEFGHJKLMNPQRSTUVWXYZabcdefghijkmnopqrstuvwxyz"

/-- Character of the alphabet at index `i` (Python `BASE58_ALPHABET[i]`).
The fallback character is never reached: every index the program uses is a
remainder modulo 58. -/
def alphaChar (i : Nat) : Char :=
  BASE58_ALPHABET.data.getD i '?'

/-- Model of `bytes_to_int` (source lines 48-55): interpret the byte values
in big-endian order, i.e. `int.from_bytes(bytearray(int_bytes), 'big')`,
as a Horner fold.  (`bytearray` requires every element to lie in `[0,255]`;
theorems about byte lists carry that bound as a hypothesis.) -/
def bytes_to_int (byte_list : List Nat) : Nat :=
  byte_list.foldl (fun acc b => acc * 256 + b) 0

/-- The `while num > 0` loop of `encode_base58` (source lines 66-68):
repeatedly take `divmod(num, 58)` and prepend the alphabet character of
the remainder to the accumulator string. -/
def b58Loop (num : Nat) (encoded : List Char) : List Char :=
  if h : num = 0 then encoded
  else b58Loop (num / 58) (alphaChar (num % 58) :: encoded)
termination_by num
decreasing_by exact Nat.div_lt_self (Nat.pos_of_ne_zero h) (by norm_num)

/-- The leading-zero-byte count of `encode_base58` (source lines 70-76):
walk the list from the front, counting zero bytes, stopping at the first
nonzero byte. -/
def countLeadingZeros : List Nat → Nat
  | [] => 0
  | x :: rest => if x = 0 then countLeadingZeros rest + 1 else 0

/-- Model of `encode_base58` (source lines 57-78). -/
def encode_base58 (byte_list : List Nat) : String :=
  let num := bytes_to_int byte_list
  let encoded := b58Loop num []
  let n_leading_zeros := countLeadingZeros byte_list
  ⟨List.replicate n_leading_zeros '1' ++ encoded⟩

/-- Base-58 digit string of `n`, most significant digit first; the
recursive form of the prepend loop `b58Loop`, convenient for induction. -/
def base58Digits (n : Nat) : List Char :=
  if h : n = 0 then []
  else base58Digits (n / 58) ++ [alphaChar (n % 58)]
termination_by n
decreasing_by exact Nat.div_lt_self (Nat.pos_of_ne_zero h) (by norm_num)

/-- Spec-side reading of the magnitude: the positional big-endian base-256
value, `bytes[0]` most significant. -/
def specMagnitude : List Nat → Nat
  | [] => 0
  | x :: rest => x * 256 ^ rest.length + specMagnitude rest

/-- Error outcomes of `parse_input`: the program prints a message and
calls `sys.exit(1)`.  `invalidLength` is the `exactly 64 bytes are
required` failure (source lines 21-23); `invalidByte` is the
`Error parsing byte` failure (source lines 43-45) and carries the token
the message would print. -/
inductive ParseError where
  | invalidLength (got : Nat)
  | invalidByte (token : List Char)
deriving DecidableEq

/-- The six ASCII whitespace characters stripped by Python `str.strip()`
(and by `int()`). -/
def pySpace (c : Char) : Bool :=
  c == ' ' || c == '\t' || c == '\n' || c == '\r' || c == '\x0B' || c == '\x0C'

/-- Model of Python `str.strip()`: remove whitespace from both ends. -/
def pyStrip (l : List Char) : List Char :=
  ((l.dropWhile pySpace).reverse.dropWhile pySpace).reverse

/-- Source lines 16-17: if the stripped input starts with `[` and ends
with `]`, drop both brackets (`input_str[1:-1]`). -/
def stripBrackets (l : List Char) : List Char :=
  if l.head? = some '[' ∧ l.getLast? = some ']' then (l.drop 1).dropLast else l

/-- Model of Python `str.split(",")` (source line 20): cut at every comma;
the result always has one more part than there are commas. -/
def splitComma : List Char → List (List Char)
  | [] => [[]]
  | c :: rest =>
    if c = ',' then [] :: splitComma rest
    else
      match splitComma rest with
      | t :: ts => (c :: t) :: ts
      | [] => [[c]]

/-- The comma-separated parts `parse_input` iterates over (source lines
15-20): strip the input, remove surrounding brackets, split at commas. -/
def tokensOf (input : String) : List (List Char) :=
  splitComma (stripBrackets (pyStrip input.data))

/-- Value of a single decimal digit character, as accepted by Python
`int(s)`. -/
def decDigitVal (c : Char) : Option Nat :=
  if c = '0' then some 0 else if c = '1' then some 1 else if c = '2' then some 2
  else if c = '3' then some 3 else if c = '4' then some 4 else if c = '5' then some 5
  else if c = '6' then some 6 else if c = '7' then some 7 else if c = '8' then some 8
  else if c = '9' then some 9 else none

/-- Value of a single hexadecimal digit character, as accepted by Python
`int(s, 16)`. -/
def hexDigitVal (c : Char) : Option Nat :=
  if c = '0' then some 0 else if c = '1' then some 1 else if c = '2' then some 2
  else if c = '3' then some 3 else if c = '4' then some 4 else if c = '5' then some 5
  else if c = '6' then some 6 else if c = '7' then some 7 else if c = '8' then some 8
  else if c = '9' then some 9
  else if c = 'a' then some 10 else if c = 'b' then some 11 else if c = 'c' then some 12
  else if c = 'd' then some 13 else if c = 'e' then some 14 else if c = 'f' then some 15
  else if c = 'A' then some 10 else if c = 'B' then some 11 else if c = 'C' then some 12
  else if c = 'D' then some 13 else if c = 'E' then some 14 else if c = 'F' then some 15
  else none

/-- Whether `l` is a nonempty run of digits (for the digit test `isD`)
with, at most, single underscores between digits — the digit-part grammar
of Python `int()`. -/
def isDigitRun (isD : Char → Bool) : List Char → Bool
  | [] => false
  | [c] => isD c
  | c :: c2 :: rest =>
    isD c && (if c2 = '_' then isDigitRun isD rest else isDigitRun isD (c2 :: rest))

/-- Positional value of a digit run in the given base, ignoring the
underscore separators. -/
def digitsVal (dv : Char → Option Nat) (base : Nat) (l : List Char) : Nat :=
  (l.filter (fun c => c != '_')).foldl (fun acc c => acc * base + (dv c).getD 0) 0

/-- Magnitude part of Python `int()`: an optional `0x`/`0X` prefix (base 16
only), then a digit run. -/
def pyIntMag (dv : Char → Option Nat) (base : Nat) (allow0x : Bool) (t : List Char) :
    Option Nat :=
  let t2 := if allow0x && (t.take 2 == ['0', 'x'] || t.take 2 == ['0', 'X'])
    then t.drop 2 else t
  if isDigitRun (fun c => (dv c).isSome) t2 then some (digitsVal dv base t2) else none

/-- Model of Python `int(s)` / `int(s, 16)`: strip whitespace, read an
optional sign, then the magnitude; `none` models the `ValueError` that
`parse_input` catches. -/
def pyInt (dv : Char → Option Nat) (base : Nat) (allow0x : Bool) (s : List Char) :
    Option Int :=
  match pyStrip s with
  | '+' :: r => (pyIntMag dv base allow0x r).map (fun n => (n : Int))
  | '-' :: r => (pyIntMag dv base allow0x r).map (fun n => -(n : Int))
  | t => (pyIntMag dv base allow0x t).map (fun n => (n : Int))

/-- The hex-vs-decimal heuristic of source line 34: does the lowercased
token contain one of the letters `a`-`f`? -/
def hasHexLetter (t : List Char) : Bool :=
  (t.map Char.toLower).any
    (fun c => c == 'a' || c == 'b' || c == 'c' || c == 'd' || c == 'e' || c == 'f')

/-- Token normalization of source lines 27-30: strip the part, then remove
one leading `0x` or `0X`. -/
def normToken (part : List Char) : List Char :=
  let token := pyStrip part
  if token.take 2 == ['0', 'x'] || token.take 2 == ['0', 'X'] then token.drop 2
  else token

/-- The integer value `val` computed for one token (source lines 27-38):
normalize, then parse as hex if the token contains a letter `a`-`f`, else
as decimal.  `none` models a `ValueError` raised by `int`. -/
def tokenIntValue (part : List Char) : Option Int :=
  let token := normToken part
  if hasHexLetter token then pyInt hexDigitVal 16 true token
  else pyInt decDigitVal 10 false token

/-- Single hex digit character, lowercase, as produced by `format` with
`02x`. -/
def hexChar (d : Nat) : Char :=
  if d < 10 then Char.ofNat ('0'.toNat + d) else Char.ofNat ('a'.toNat + (d - 10))

/-- Two-digit lowercase hex rendering `f"{val:02x}"` of a byte value
(source line 42). -/
def hexByte (v : Nat) : List Char :=
  [hexChar (v / 16), hexChar (v % 16)]

/-- Handling of one token in the loop of `parse_input` (source lines
26-45): compute `val`, check the range `0 <= val <= 255`, and either
append the two-digit hex string or fail with the `Error parsing byte`
exit.  A failed parse and an out-of-range value take the same `except`
path in the source, so both map to `ParseError.invalidByte`. -/
def processToken (part : List Char) : Except ParseError (List Char) :=
  match tokenIntValue part with
  | none => .error (.invalidByte (normToken part))
  | some val =>
    if 0 ≤ val ∧ val ≤ 255 then .ok (hexByte val.toNat)
    else .error (.invalidByte (normToken part))

/-- Model of `parse_input` (source lines 7-46): split into parts, fail if
there are not exactly 64 of them, otherwise process the tokens from left
to right, stopping at the first failing token. -/
def parse_input (input : String) : Except ParseError (List (List Char)) :=
  let parts := tokensOf input
  if parts.length ≠ 64 then .error (.invalidLength parts.length)
  else parts.mapM processToken

/-- Index of a character in the Base58 alphabet; inverse of `alphaChar`
on the alphabet's characters. -/
def charIndex (c : Char) : Nat :=
  BASE58_ALPHABET.data.findIdx (fun a => a == c)

/-- Value of a big-endian base-58 digit string. -/
def digitsValue (cs : List Char) : Nat :=
  cs.foldl (fun acc c => acc * 58 + charIndex c) 0

/-- Minimal big-endian base-256 byte representation of `n` (empty for
`n = 0`, no leading zero byte otherwise). -/
def natToBytes (n : Nat) : List Nat :=
  if h : n = 0 then []
  else natToBytes (n / 256) ++ [n % 256]
termination_by n
decreasing_by exact Nat.div_lt_self (Nat.pos_of_ne_zero h) (by norm_num)

/-- A Base58 decoder witnessing the round-trip property: count the leading
`'1'` characters (one per leading zero byte), read the remaining
characters as a base-58 numeral, and rebuild the byte list. -/
def decode (s : String) : List Nat :=
  let k := (s.data.takeWhile (fun c => c == '1')).length
  List.replicate k 0 ++ natToBytes (digitsValue (s.data.drop k))

theorem base58Digits_zero : base58Digits 0 = [] := by
  simp [base58Digits]

theorem base58Digits_pos (n : Nat) (h : n ≠ 0) :
    base58Digits n = base58Digits (n / 58) ++ [alphaChar (n % 58)] := by
  rw [base58Digits]
  simp [h]

theorem b58Loop_eq_digits (n : Nat) : ∀ acc, b58Loop n acc = base58Digits n ++ acc := by
  induction n using Nat.strong_induction_on with
  | _ n ih =>
    intro acc
    by_cases h : n = 0
    · subst h
      simp [b58Loop, base58Digits]
    · rw [b58Loop, base58Digits_pos n h]
      simp only [h, dite_false]
      rw [ih (n / 58) (Nat.div_lt_self (Nat.pos_of_ne_zero h) (by norm_num))]
      simp

theorem encode_data (b : List Nat) :
    (encode_base58 b).data =
      List.replicate (countLeadingZeros b) '1' ++ base58Digits (bytes_to_int b) := by
  show List.replicate (countLeadingZeros b) '1' ++ b58Loop (bytes_to_int b) [] = _
  rw [b58Loop_eq_digits]
  simp

theorem foldl_horner (l : List Nat) : ∀ a : Nat,
    l.foldl (fun acc b => acc * 256 + b) a = a * 256 ^ l.length + specMagnitude l := by
  induction l with
  | nil => intro a; simp [specMagnitude]
  | cons x r ih =>
    intro a
    simp only [List.foldl_cons, specMagnitude, List.length_cons]
    rw [ih (a * 256 + x)]
    ring

theorem bytes_to_int_eq_spec (l : List Nat) : bytes_to_int l = specMagnitude l := by
  show l.foldl (fun acc b => acc * 256 + b) 0 = _
  rw [foldl_horner]
  simp

theorem countLeadingZeros_eq_takeWhile (b : List Nat) :
    countLeadingZeros b = (b.takeWhile (fun x => x == 0)).length := by
  induction b with
  | nil => rfl
  | cons x r ih =>
    by_cases h : x = 0
    · subst h
      simp [countLeadingZeros, List.takeWhile_cons, ih]
    · simp [countLeadingZeros, List.takeWhile_cons, h]

theorem czl_decomp (b : List Nat) :
    b = List.replicate (countLeadingZeros b) 0 ++ b.drop (countLeadingZeros b) := by
  induction b with
  | nil => rfl
  | cons x r ih =>
    by_cases h : x = 0
    · subst h
      simp only [countLeadingZeros, if_pos rfl, List.replicate_succ, List.cons_append,
        List.drop_succ_cons]
      exact congrArg (0 :: ·) ih
    · simp [countLeadingZeros, h]

theorem czl_drop_head (b : List Nat) :
    ∀ x, (b.drop (countLeadingZeros b)).head? = some x → x ≠ 0 := by
  induction b with
  | nil => intro x hx; simp at hx
  | cons y r ih =>
    intro x hx
    by_cases h : y = 0
    · subst h
      simp only [countLeadingZeros, if_pos rfl, List.drop_succ_cons] at hx
      exact ih x hx
    · simp only [countLeadingZeros, if_neg h, List.drop_zero, List.head?_cons,
        Option.some.injEq] at hx
      omega

theorem bytes_to_int_replicate_zero (n : Nat) (l : List Nat) :
    bytes_to_int (List.replicate n 0 ++ l) = bytes_to_int l := by
  show (List.replicate n 0 ++ l).foldl _ 0 = l.foldl _ 0
  rw [List.foldl_append]
  congr 1
  induction n with
  | zero => rfl
  | succ k ih =>
    rw [List.replicate_succ, List.foldl_cons]
    simpa using ih

theorem bytes_to_int_pos (x : Nat) (l : List Nat) (hx : x ≠ 0) :
    1 ≤ bytes_to_int (x :: l) := by
  rw [bytes_to_int_eq_spec]
  show 1 ≤ x * 256 ^ l.length + specMagnitude l
  have h1 : 1 ≤ x := Nat.one_le_iff_ne_zero.mpr hx
  have h2 : 1 ≤ 256 ^ l.length := Nat.one_le_pow _ _ (by norm_num)
  have h3 : 1 * 1 ≤ x * 256 ^ l.length := Nat.mul_le_mul h1 h2
  omega

theorem specMagnitude_le (l : List Nat) (hb : ∀ x ∈ l, x ≤ 255) :
    specMagnitude l ≤ specMagnitude (List.replicate l.length 255) := by
  induction l with
  | nil => simp [specMagnitude]
  | cons x r ih =>
    simp only [List.length_cons, List.replicate_succ, specMagnitude, List.length_replicate]
    have hx : x ≤ 255 := hb x (by simp)
    have hr := ih (fun y hy => hb y (by simp [hy]))
    exact Nat.add_le_add (Nat.mul_le_mul_right _ hx) hr

theorem base58Digits_ne_nil (n : Nat) (h : n ≠ 0) : base58Digits n ≠ [] := by
  rw [base58Digits_pos n h]
  simp

theorem head?_append_left {α : Type} (l l' : List α) (h : l ≠ []) :
    (l ++ l').head? = l.head? := by
  cases l with
  | nil => exact absurd rfl h
  | cons a t => rfl

theorem alphaChar_ne_one : ∀ r, r < 58 → r ≠ 0 → ((alphaChar r == '1') = false) := by
  decide

theorem base58Digits_head : ∀ n, n ≠ 0 →
    ∃ c, (base58Digits n).head? = some c ∧ (c == '1') = false := by
  intro n
  induction n using Nat.strong_induction_on with
  | _ n ih =>
    intro h
    by_cases hd : n / 58 = 0
    · rw [base58Digits_pos n h, hd, base58Digits_zero, List.nil_append]
      refine ⟨alphaChar (n % 58), rfl, ?_⟩
      have h58 : n % 58 < 58 := Nat.mod_lt _ (by norm_num)
      have hne : n % 58 ≠ 0 := by
        have := Nat.div_add_mod n 58
        omega
      exact alphaChar_ne_one _ h58 hne
    · rw [base58Digits_pos n h,
        head?_append_left _ _ (base58Digits_ne_nil _ hd)]
      exact ih (n / 58) (Nat.div_lt_self (Nat.pos_of_ne_zero h) (by norm_num)) hd

theorem base58Digits_mem : ∀ n, ∀ c ∈ base58Digits n, ∃ r, r < 58 ∧ c = alphaChar r := by
  intro n
  induction n using Nat.strong_induction_on with
  | _ n ih =>
    intro c hc
    by_cases h : n = 0
    · subst h
      rw [base58Digits_zero] at hc
      simp at hc
    · rw [base58Digits_pos n h] at hc
      rcases List.mem_append.mp hc with h1 | h2
      · exact ih (n / 58) (Nat.div_lt_self (Nat.pos_of_ne_zero h) (by norm_num)) c h1
      · simp at h2
        exact ⟨n % 58, Nat.mod_lt _ (by norm_num), h2⟩

theorem digitsValue_append (cs : List Char) (c : Char) :
    digitsValue (cs ++ [c]) = digitsValue cs * 58 + charIndex c := by
  show (cs ++ [c]).foldl _ 0 = _
  rw [List.foldl_append]
  rfl

theorem charIndex_alphaChar : ∀ r, r < 58 → charIndex (alphaChar r) = r := by
  decide

theorem digitsValue_digits : ∀ n, digitsValue (base58Digits n) = n := by
  intro n
  induction n using Nat.strong_induction_on with
  | _ n ih =>
    by_cases h : n = 0
    · subst h
      rw [base58Digits_zero]
      rfl
    · rw [base58Digits_pos n h, digitsValue_append,
        ih (n / 58) (Nat.div_lt_self (Nat.pos_of_ne_zero h) (by norm_num)),
        charIndex_alphaChar _ (Nat.mod_lt _ (by norm_num))]
      omega

theorem base58Digits_len_mono : ∀ n m, m ≤ n →
    (base58Digits m).length ≤ (base58Digits n).length := by
  intro n
  induction n using Nat.strong_induction_on with
  | _ n ih =>
    intro m hm
    by_cases hm0 : m = 0
    · subst hm0
      rw [base58Digits_zero]
      simp
    · have hn0 : n ≠ 0 := by omega
      rw [base58Digits_pos m hm0, base58Digits_pos n hn0]
      simp only [List.length_append, List.length_cons, List.length_nil]
      have hr : (base58Digits (m / 58)).length ≤ (base58Digits (n / 58)).length :=
        ih (n / 58) (Nat.div_lt_self (Nat.pos_of_ne_zero hn0) (by norm_num)) (m / 58)
          (Nat.div_le_div_right hm)
      omega

theorem natToBytes_zero : natToBytes 0 = [] := by
  simp [natToBytes]

theorem natToBytes_pos (n : Nat) (h : n ≠ 0) :
    natToBytes n = natToBytes (n / 256) ++ [n % 256] := by
  rw [natToBytes]
  simp [h]

theorem natToBytes_roundtrip : ∀ l : List Nat, (∀ x ∈ l, x ≤ 255) →
    (∀ x, l.head? = some x → x ≠ 0) → natToBytes (bytes_to_int l) = l := by
  intro l
  induction l using List.reverseRecOn with
  | nil =>
    intro _ _
    exact natToBytes_zero
  | append_singleton l y ih =>
    intro hb hh
    have hy : y ≤ 255 := hb y (by simp)
    have hbl : ∀ x ∈ l, x ≤ 255 := fun x hx => hb x (by simp [hx])
    have hsplit : bytes_to_int (l ++ [y]) = bytes_to_int l * 256 + y := by
      show (l ++ [y]).foldl _ 0 = _
      rw [List.foldl_append]
      rfl
    cases l with
    | nil =>
      have hy0 : y ≠ 0 := hh y rfl
      have hv : bytes_to_int [y] = y := by simp [bytes_to_int]
      rw [List.nil_append, hv, natToBytes_pos y hy0, Nat.div_eq_of_lt (by omega),
        natToBytes_zero, Nat.mod_eq_of_lt (by omega)]
      rfl
    | cons z l' =>
      have hz : z ≠ 0 := hh z rfl
      have hM : 1 ≤ bytes_to_int (z :: l') := bytes_to_int_pos z l' hz
      have hne : bytes_to_int (z :: l') * 256 + y ≠ 0 := by omega
      have hh' : ∀ x, (z :: l').head? = some x → x ≠ 0 := by
        intro x hx
        simp only [List.head?_cons, Option.some.injEq] at hx
        omega
      have hdiv : (bytes_to_int (z :: l') * 256 + y) / 256 = bytes_to_int (z :: l') := by
        omega
      have hmod : (bytes_to_int (z :: l') * 256 + y) % 256 = y := by omega
      rw [hsplit, natToBytes_pos _ hne, hdiv, hmod, ih hbl hh']

theorem takeWhile_replicate_append (p : Char → Bool) (a : Char) (hp : p a = true)
    (n : Nat) (l : List Char) :
    (List.replicate n a ++ l).takeWhile p = List.replicate n a ++ l.takeWhile p := by
  induction n with
  | zero => simp
  | succ k ih =>
    rw [List.replicate_succ, List.cons_append]
    simp [List.takeWhile_cons, hp, ih]

theorem takeWhile_one_digits (n : Nat) :
    (base58Digits n).takeWhile (fun c => c == '1') = [] := by
  by_cases h : n = 0
  · subst h
    rw [base58Digits_zero]
    rfl
  · obtain ⟨c, hc, hne⟩ := base58Digits_head n h
    cases hdig : base58Digits n with
    | nil => rfl
    | cons d t =>
      rw [hdig] at hc
      simp only [List.head?_cons, Option.some.injEq] at hc
      subst hc
      simp [List.takeWhile_cons, hne]

theorem decode_encode_aux (b : List Nat) (hb : ∀ x ∈ b, x ≤ 255) :
    decode (encode_base58 b) = b := by
  have hdecomp := czl_decomp b
  have hm : bytes_to_int b = bytes_to_int (b.drop (countLeadingZeros b)) := by
    conv_lhs => rw [hdecomp]
    exact bytes_to_int_replicate_zero _ _
  have htake : (encode_base58 b).data.takeWhile (fun c => c == '1') =
      List.replicate (countLeadingZeros b) '1' := by
    rw [encode_data, takeWhile_replicate_append _ _ (by decide), takeWhile_one_digits]
    simp
  have hk : ((encode_base58 b).data.takeWhile (fun c => c == '1')).length =
      countLeadingZeros b := by
    rw [htake]
    simp
  have hdrop : (encode_base58 b).data.drop (countLeadingZeros b) =
      base58Digits (bytes_to_int b) := by
    rw [encode_data]
    exact List.drop_left' (by simp)
  have hrb : ∀ x ∈ b.drop (countLeadingZeros b), x ≤ 255 :=
    fun x hx => hb x (List.drop_subset _ _ hx)
  simp only [decode]
  rw [hk, hdrop, digitsValue_digits, hm,
    natToBytes_roundtrip _ hrb (czl_drop_head b)]
  exact hdecomp.symm

/-- C1: for a 64-byte input, `encode_base58` returns `n` copies of `'1'` (one
per byte of the leading zero run) followed by the base-58 digit string of the
big-endian base-256 magnitude of the bytes, the digits being produced by
repeated floor division by 58 (empty digit string for magnitude 0). -/
theorem encode_follows_spec_algorithm (b : List Nat) (hlen : b.length = 64)
    (hb : ∀ x ∈ b, x ≤ 255) :
    encode_base58 b =
      ⟨List.replicate ((b.takeWhile (fun x => x == 0)).length) '1' ++
        base58Digits (specMagnitude b)⟩ := by
  apply String.ext
  rw [encode_data, countLeadingZeros_eq_takeWhile, bytes_to_int_eq_spec]

theorem encode_follows_spec_algorithm_witness :
    (List.replicate 63 (0 : Nat) ++ [255]).length = 64 ∧
    (∀ x ∈ List.replicate 63 (0 : Nat) ++ [255], x ≤ 255) ∧
    encode_base58 (List.replicate 63 0 ++ [255]) =
      ⟨List.replicate
          (((List.replicate 63 (0 : Nat) ++ [255]).takeWhile (fun x => x == 0)).length) '1' ++
        base58Digits (specMagnitude (List.replicate 63 0 ++ [255]))⟩ :=
  ⟨by decide, by decide, encode_follows_spec_algorithm _ (by decide) (by decide)⟩

/-- C2: the function `decode` inverts `encode_base58` on every 64-byte input,
leading zero bytes included, so `encode_base58` is injective there and the
original bytes are recoverable from the output. -/
theorem decode_encode_roundtrip (b : List Nat) (hlen : b.length = 64)
    (hb : ∀ x ∈ b, x ≤ 255) : decode (encode_base58 b) = b :=
  decode_encode_aux b hb

theorem decode_encode_roundtrip_witness :
    (List.replicate 63 (0 : Nat) ++ [1]).length = 64 ∧
    (∀ x ∈ List.replicate 63 (0 : Nat) ++ [1], x ≤ 255) ∧
    decode (encode_base58 (List.replicate 63 0 ++ [1])) = List.replicate 63 0 ++ [1] :=
  ⟨by decide, by decide, decode_encode_roundtrip _ (by decide) (by decide)⟩

/-- C3: encoding the 64-byte all-zero sequence yields exactly 64 copies of
the character `'1'` and nothing else. -/
theorem encode_all_zero :
    encode_base58 (List.replicate 64 0) = ⟨List.replicate 64 '1'⟩ := by
  apply String.ext
  rw [encode_data]
  have h1 : countLeadingZeros (List.replicate 64 0) = 64 := by decide
  have h2 : bytes_to_int (List.replicate 64 0) = 0 := by decide
  rw [h1, h2, base58Digits_zero]
  simp

/-- C4: encoding 63 zero bytes followed by the byte 1 yields exactly 63
copies of `'1'` followed by the single character `'2'`. -/
theorem encode_63_zeros_then_one :
    encode_base58 (List.replicate 63 0 ++ [1]) = ⟨List.replicate 63 '1' ++ ['2']⟩ := by
  apply String.ext
  rw [encode_data]
  have h1 : countLeadingZeros (List.replicate 63 0 ++ [1]) = 63 := by decide
  have h2 : bytes_to_int (List.replicate 63 0 ++ [1]) = 1 := by decide
  have h3 : base58Digits 1 = ['2'] := by
    rw [base58Digits_pos 1 one_ne_zero]
    norm_num
    rw [base58Digits_zero]
    decide
  rw [h1, h2, h3]

theorem string_length_data (s : String) : s.length = s.data.length := rfl

theorem encode_length_no_zeros (b : List Nat) (h : countLeadingZeros b = 0) :
    (encode_base58 b).length = (base58Digits (bytes_to_int b)).length := by
  rw [string_length_data, encode_data, h, List.replicate_zero, List.nil_append]

theorem alphaChar_facts : ∀ r, r < 58 →
    alphaChar r ∈ BASE58_ALPHABET.data ∧ alphaChar r ≠ '0' ∧ alphaChar r ≠ 'O' ∧
      alphaChar r ≠ 'I' ∧ alphaChar r ≠ 'l' := by
  decide

/-- C5: among 64-byte inputs whose first byte is nonzero, no encoding is
longer than the encoding of the all-0xFF input (the maximum magnitude). -/
theorem encode_max_at_all_ff (b : List Nat) (hlen : b.length = 64)
    (hb : ∀ x ∈ b, x ≤ 255) (hhead : b.head? ≠ some 0) :
    (encode_base58 b).length ≤ (encode_base58 (List.replicate 64 255)).length := by
  have hczl : countLeadingZeros b = 0 := by
    cases b with
    | nil => simp at hlen
    | cons x r =>
      have hx : x ≠ 0 := by
        intro h
        subst h
        exact hhead rfl
      simp [countLeadingZeros, hx]
  have hczlF : countLeadingZeros (List.replicate 64 255) = 0 := by decide
  rw [encode_length_no_zeros b hczl, encode_length_no_zeros _ hczlF]
  apply base58Digits_len_mono
  rw [bytes_to_int_eq_spec, bytes_to_int_eq_spec]
  have hle := specMagnitude_le b hb
  rw [hlen] at hle
  exact hle

theorem encode_max_at_all_ff_witness :
    ((1 : Nat) :: List.replicate 63 0).length = 64 ∧
    (∀ x ∈ (1 : Nat) :: List.replicate 63 0, x ≤ 255) ∧
    ((1 : Nat) :: List.replicate 63 0).head? ≠ some 0 ∧
    (encode_base58 ((1 : Nat) :: List.replicate 63 0)).length ≤
      (encode_base58 (List.replicate 64 255)).length :=
  ⟨by decide, by decide, by decide,
    encode_max_at_all_ff _ (by decide) (by decide) (by decide)⟩

/-- C6: every character of the encoding of a 64-byte input belongs to the
58-symbol alphabet; in particular `'0'`, `'O'`, `'I'`, `'l'` never occur. -/
theorem encode_alphabet_closure (b : List Nat) (hlen : b.length = 64)
    (hb : ∀ x ∈ b, x ≤ 255) :
    ∀ c ∈ (encode_base58 b).data, c ∈ BASE58_ALPHABET.data ∧
      c ≠ '0' ∧ c ≠ 'O' ∧ c ≠ 'I' ∧ c ≠ 'l' := by
  intro c hc
  rw [encode_data] at hc
  rcases List.mem_append.mp hc with h1 | h2
  · have h1' : c = '1' := List.eq_of_mem_replicate h1
    subst h1'
    exact ⟨by decide, by decide, by decide, by decide, by decide⟩
  · obtain ⟨r, hr, rfl⟩ := base58Digits_mem _ c h2
    exact alphaChar_facts r hr

theorem encode_alphabet_closure_witness :
    (List.replicate 64 (0 : Nat)).length = 64 ∧
    (∀ x ∈ List.replicate 64 (0 : Nat), x ≤ 255) ∧
    (∀ c ∈ (encode_base58 (List.replicate 64 0)).data, c ∈ BASE58_ALPHABET.data ∧
      c ≠ '0' ∧ c ≠ 'O' ∧ c ≠ 'I' ∧ c ≠ 'l') :=
  ⟨by decide, by decide, encode_alphabet_closure _ (by decide) (by decide)⟩

/-- C9: `encode_base58` performs no length validation: for a byte list of
any length, 64 or not, it totally computes one `'1'` per leading zero byte
followed by the base-58 digits of the big-endian magnitude. -/
theorem encode_no_length_validation (b : List Nat) (hb : ∀ x ∈ b, x ≤ 255) :
    encode_base58 b =
      ⟨List.replicate ((b.takeWhile (fun x => x == 0)).length) '1' ++
        base58Digits (specMagnitude b)⟩ := by
  apply String.ext
  rw [encode_data, countLeadingZeros_eq_takeWhile, bytes_to_int_eq_spec]

theorem encode_no_length_validation_witness :
    (∀ x ∈ [(0 : Nat), 7], x ≤ 255) ∧
    [(0 : Nat), 7].length = 2 ∧
    encode_base58 [0, 7] =
      ⟨List.replicate (([(0 : Nat), 7].takeWhile (fun x => x == 0)).length) '1' ++
        base58Digits (specMagnitude [0, 7])⟩ :=
  ⟨by decide, by decide, encode_no_length_validation _ (by decide)⟩

theorem splitComma_ne_nil (l : List Char) : splitComma l ≠ [] := by
  induction l with
  | nil => simp [splitComma]
  | cons c rest ih =>
    rw [splitComma]
    by_cases hc : c = ','
    · simp [hc]
    · simp only [hc, if_false]
      cases h : splitComma rest with
      | nil => exact absurd h ih
      | cons t ts => simp

theorem splitComma_length (l : List Char) :
    (splitComma l).length = l.count ',' + 1 := by
  induction l with
  | nil => rfl
  | cons c rest ih =>
    rw [splitComma]
    by_cases hc : c = ','
    · subst hc
      simp [List.count_cons, ih]
    · simp only [hc, if_false]
      obtain ⟨t, ts, h⟩ : ∃ t ts, splitComma rest = t :: ts := by
        cases h : splitComma rest with
        | nil => exact absurd h (splitComma_ne_nil rest)
        | cons t ts => exact ⟨t, ts, rfl⟩
      rw [h]
      rw [h] at ih
      simp only [List.length_cons] at ih ⊢
      simp [List.count_cons, hc]
      omega

theorem count_dropWhile_pySpace (l : List Char) :
    (l.dropWhile pySpace).count ',' = l.count ',' := by
  conv_rhs => rw [← List.takeWhile_append_dropWhile pySpace l]
  rw [List.count_append]
  have h0 : (l.takeWhile pySpace).count ',' = 0 := by
    rw [List.count_eq_zero]
    intro hmem
    have hp := List.mem_takeWhile_imp hmem
    exact absurd hp (by decide)
  omega

theorem count_pyStrip (l : List Char) : (pyStrip l).count ',' = l.count ',' := by
  show (((l.dropWhile pySpace).reverse.dropWhile pySpace).reverse).count ',' = _
  rw [List.count_reverse, count_dropWhile_pySpace, List.count_reverse,
    count_dropWhile_pySpace]

theorem getLast?_decomp {α : Type} (l : List α) (a : α) (h : l.getLast? = some a) :
    ∃ l', l = l' ++ [a] := by
  have hr : l.reverse.head? = some a := by rw [List.head?_reverse, h]
  cases hrev : l.reverse with
  | nil => rw [hrev] at hr; simp at hr
  | cons b t =>
    rw [hrev] at hr
    simp only [List.head?_cons, Option.some.injEq] at hr
    subst hr
    refine ⟨t.reverse, ?_⟩
    have hc := congrArg List.reverse hrev
    simpa using hc

theorem count_stripBrackets (l : List Char) :
    (stripBrackets l).count ',' = l.count ',' := by
  rw [stripBrackets]
  split
  · rename_i h
    obtain ⟨h1, h2⟩ := h
    obtain ⟨l', rfl⟩ := getLast?_decomp l ']' h2
    cases l' with
    | nil => simp at h1
    | cons a l'' =>
      simp only [List.cons_append, List.head?_cons, Option.some.injEq] at h1
      subst h1
      rw [List.cons_append, List.drop_succ_cons, List.drop_zero, List.dropLast_concat]
      rw [List.count_cons, List.count_append]
      simp [List.count_cons]
  · rfl

theorem tokensOf_length (s : String) :
    (tokensOf s).length = (splitComma s.data).length := by
  show (splitComma (stripBrackets (pyStrip s.data))).length = _
  rw [splitComma_length, splitComma_length, count_stripBrackets, count_pyStrip]

theorem parse_input_length_error (s : String) (h : (splitComma s.data).length ≠ 64) :
    parse_input s = .error (.invalidLength ((splitComma s.data).length)) := by
  have h1 : (tokensOf s).length ≠ 64 := by rw [tokensOf_length]; exact h
  simp only [parse_input]
  rw [if_pos h1, tokensOf_length]

/-- C7: whenever the comma-split token count of the textual input differs
from 64, `parse_input` stops with the invalid-input-length error, before any
byte parsing or base-conversion arithmetic, producing no output. -/
theorem parse_input_length_guard (s : String) (h : (splitComma s.data).length ≠ 64) :
    parse_input s = .error (.invalidLength ((splitComma s.data).length)) :=
  parse_input_length_error s h

theorem parse_input_length_guard_witness :
    (splitComma "300".data).length ≠ 64 ∧
    parse_input "300" = .error (.invalidLength ((splitComma "300".data).length)) :=
  ⟨by decide, parse_input_length_guard "300" (by decide)⟩

theorem processToken_error_shape (p : List Char) (e : ParseError)
    (h : processToken p = .error e) : e = .invalidByte (normToken p) := by
  unfold processToken at h
  split at h
  · simp only [Except.error.injEq] at h
    exact h.symm
  · split at h
    · simp at h
    · simp only [Except.error.injEq] at h
      exact h.symm

theorem except_bind_ok {E A B : Type} (y : A) (f : A → Except E B) :
    (Except.ok y >>= f) = f y := rfl

theorem except_bind_error {E A B : Type} (e : E) (f : A → Except E B) :
    ((Except.error e : Except E A) >>= f) = Except.error e := rfl

theorem mapM_processToken_error (l : List (List Char)) (part : List Char)
    (hmem : part ∈ l) (hfail : ∀ y, processToken part ≠ .ok y) :
    ∃ t, l.mapM processToken = .error (.invalidByte t) := by
  induction l with
  | nil => simp at hmem
  | cons a rest ih =>
    rw [List.mapM_cons]
    cases hpa : processToken a with
    | error e =>
      have he := processToken_error_shape a e hpa
      subst he
      exact ⟨normToken a, by rw [except_bind_error]⟩
    | ok y =>
      rcases List.mem_cons.mp hmem with rfl | hmem2
      · exact absurd hpa (hfail y)
      · obtain ⟨t, ht⟩ := ih hmem2
        refine ⟨t, ?_⟩
        rw [except_bind_ok, ht, except_bind_error]

/-- C8 (amended): for a textual input with exactly 64 comma-split tokens,
if some token parses to an integer outside `[0,255]` then `parse_input`
stops with an invalid-byte-value error (for the first failing token) and
returns no byte list. -/
theorem parse_input_invalid_byte (s : String)
    (hlen : (tokensOf s).length = 64)
    (hbad : ∃ part ∈ tokensOf s, ∃ v : Int,
      tokenIntValue part = some v ∧ ¬(0 ≤ v ∧ v ≤ 255)) :
    ∃ t, parse_input s = .error (.invalidByte t) := by
  obtain ⟨part, hmem, v, hv, hr⟩ := hbad
  have hpt : processToken part = .error (.invalidByte (normToken part)) := by
    unfold processToken
    rw [hv]
    exact if_neg hr
  have hfail : ∀ y, processToken part ≠ .ok y := by
    intro y hy
    rw [hpt] at hy
    simp at hy
  obtain ⟨t, ht⟩ := mapM_processToken_error (tokensOf s) part hmem hfail
  refine ⟨t, ?_⟩
  simp only [parse_input]
  rw [if_neg (not_not_intro hlen)]
  exact ht

theorem parse_input_invalid_byte_witness :
    (tokensOf ⟨'3' :: '0' :: '0' :: (List.replicate 63 [',', '0']).flatten⟩).length = 64 ∧
    (∃ part ∈ tokensOf ⟨'3' :: '0' :: '0' :: (List.replicate 63 [',', '0']).flatten⟩,
      ∃ v : Int, tokenIntValue part = some v ∧ ¬(0 ≤ v ∧ v ≤ 255)) ∧
    (∃ t, parse_input ⟨'3' :: '0' :: '0' :: (List.replicate 63 [',', '0']).flatten⟩ =
      .error (.invalidByte t)) :=
  ⟨by decide, ⟨['3', '0', '0'], by decide, 300, by decide, by decide⟩,
    parse_input_invalid_byte _ (by decide)
      ⟨['3', '0', '0'], by decide, 300, by decide, by decide⟩⟩

/-- C8 counterexample: the input `300` contains a token parsing to 300,
outside `[0,255]`, yet `parse_input` reports the invalid-length error (there
is only one token), not an invalid-byte-value error. -/
theorem parse_input_invalid_byte_counterexample :
    (∃ part ∈ tokensOf "300", ∃ v : Int,
      tokenIntValue part = some v ∧ ¬(0 ≤ v ∧ v ≤ 255)) ∧
    (∀ t, parse_input "300" ≠ .error (.invalidByte t)) := by
  constructor
  · exact ⟨['3', '0', '0'], by decide, 300, by decide, by decide⟩
  · intro t ht
    have h : parse_input "300" = .error (.invalidLength 1) := rfl
    rw [h] at ht
    simp at ht

theorem decDigitVal_cases (c : Char) (h : (decDigitVal c).isSome = true) :
    c = '0' ∨ c = '1' ∨ c = '2' ∨ c = '3' ∨ c = '4' ∨ c = '5' ∨ c = '6' ∨ c = '7' ∨
      c = '8' ∨ c = '9' := by
  unfold decDigitVal at h
  by_cases h0 : c = '0'
  · exact Or.inl h0
  rw [if_neg h0] at h
  by_cases h1 : c = '1'
  · exact Or.inr (Or.inl h1)
  rw [if_neg h1] at h
  by_cases h2 : c = '2'
  · exact Or.inr (Or.inr (Or.inl h2))
  rw [if_neg h2] at h
  by_cases h3 : c = '3'
  · exact Or.inr (Or.inr (Or.inr (Or.inl h3)))
  rw [if_neg h3] at h
  by_cases h4 : c = '4'
  · exact Or.inr (Or.inr (Or.inr (Or.inr (Or.inl h4))))
  rw [if_neg h4] at h
  by_cases h5 : c = '5'
  · exact Or.inr (Or.inr (Or.inr (Or.inr (Or.inr (Or.inl h5)))))
  rw [if_neg h5] at h
  by_cases h6 : c = '6'
  · exact Or.inr (Or.inr (Or.inr (Or.inr (Or.inr (Or.inr (Or.inl h6))))))
  rw [if_neg h6] at h
  by_cases h7 : c = '7'
  · exact Or.inr (Or.inr (Or.inr (Or.inr (Or.inr (Or.inr (Or.inr (Or.inl h7)))))))
  rw [if_neg h7] at h
  by_cases h8 : c = '8'
  · exact Or.inr (Or.inr (Or.inr (Or.inr (Or.inr (Or.inr (Or.inr (Or.inr (Or.inl h8))))))))
  rw [if_neg h8] at h
  by_cases h9 : c = '9'
  · exact Or.inr (Or.inr (Or.inr (Or.inr (Or.inr (Or.inr (Or.inr (Or.inr (Or.inr h9))))))))
  rw [if_neg h9] at h
  simp at h

theorem decDigit_not_special (c : Char) (h : (decDigitVal c).isSome = true) :
    c ≠ '_' ∧ c ≠ '+' ∧ c ≠ '-' ∧ pySpace c = false ∧
      (Char.toLower c == 'a' || Char.toLower c == 'b' || Char.toLower c == 'c' ||
        Char.toLower c == 'd' || Char.toLower c == 'e' || Char.toLower c == 'f') = false := by
  rcases decDigitVal_cases c h with rfl | rfl | rfl | rfl | rfl | rfl | rfl | rfl | rfl | rfl <;>
    exact ⟨by decide, by decide, by decide, by decide, by decide⟩

theorem dropWhile_eq_self_of_all {α : Type} (p : α → Bool) (l : List α)
    (h : ∀ c ∈ l, p c = false) : l.dropWhile p = l := by
  cases l with
  | nil => rfl
  | cons a t =>
    rw [List.dropWhile_cons, h a (List.mem_cons_self a t)]
    simp

theorem pyStrip_eq_self (l : List Char) (h : ∀ c ∈ l, pySpace c = false) :
    pyStrip l = l := by
  unfold pyStrip
  rw [dropWhile_eq_self_of_all _ _ h]
  rw [dropWhile_eq_self_of_all _ _ (fun c hc => h c (List.mem_reverse.mp hc))]
  exact List.reverse_reverse l

theorem isDigitRun_all (isD : Char → Bool) : ∀ l : List Char, l ≠ [] →
    (∀ c ∈ l, isD c = true) → (∀ c ∈ l, c ≠ '_') → isDigitRun isD l = true := by
  intro l
  induction l with
  | nil => intro h; exact absurd rfl h
  | cons a t ih =>
    intro _ hall hnu
    cases t with
    | nil => simp [isDigitRun, hall a (by simp)]
    | cons b t2 =>
      simp only [isDigitRun]
      rw [hall a (by simp), if_neg (hnu b (by simp))]
      simp only [Bool.true_and]
      exact ih (by simp) (fun c hc => hall c (by simp [hc])) (fun c hc => hnu c (by simp [hc]))

theorem normToken_0x (x : Char) (hx : x = 'x' ∨ x = 'X') (ds : List Char)
    (hns : ∀ c ∈ ds, pySpace c = false) :
    normToken ('0' :: x :: ds) = ds := by
  have hstrip : pyStrip ('0' :: x :: ds) = '0' :: x :: ds := by
    apply pyStrip_eq_self
    intro c hc
    rcases List.mem_cons.mp hc with rfl | hc2
    · decide
    rcases List.mem_cons.mp hc2 with rfl | hc3
    · rcases hx with rfl | rfl <;> decide
    · exact hns c hc3
  simp only [normToken, hstrip]
  have htake : ('0' :: x :: ds).take 2 = ['0', x] := by
    simp [List.take_succ_cons]
  rw [htake]
  rcases hx with rfl | rfl
  · simp
  · simp

theorem hasHexLetter_digits (ds : List Char)
    (hd : ∀ c ∈ ds, (decDigitVal c).isSome = true) : hasHexLetter ds = false := by
  unfold hasHexLetter
  rw [List.any_eq_false]
  intro c hc
  obtain ⟨c2, hc2, rfl⟩ := List.mem_map.mp hc
  have := (decDigit_not_special c2 (hd c2 hc2)).2.2.2.2
  simp only [this]
  simp

theorem pyInt_dec_of_digits (ds : List Char) (hne : ds ≠ [])
    (hd : ∀ c ∈ ds, (decDigitVal c).isSome = true) :
    pyInt decDigitVal 10 false ds = some ((digitsVal decDigitVal 10 ds : Nat) : Int) := by
  have hns : ∀ c ∈ ds, pySpace c = false :=
    fun c hc => (decDigit_not_special c (hd c hc)).2.2.2.1
  have hstrip : pyStrip ds = ds := pyStrip_eq_self ds hns
  have hrun : isDigitRun (fun c => (decDigitVal c).isSome) ds = true :=
    isDigitRun_all _ ds hne hd (fun c hc => (decDigit_not_special c (hd c hc)).1)
  have hmag : pyIntMag decDigitVal 10 false ds = some (digitsVal decDigitVal 10 ds) := by
    unfold pyIntMag
    simp only [Bool.false_and, Bool.false_eq_true, if_false, hrun, if_true]
  unfold pyInt
  rw [hstrip]
  cases ds with
  | nil => exact absurd rfl hne
  | cons a t =>
    have ha := decDigit_not_special a (hd a (by simp))
    split
    · rename_i r heq
      rw [List.cons.injEq] at heq
      exact absurd heq.1 ha.2.1
    · rename_i r heq
      rw [List.cons.injEq] at heq
      exact absurd heq.1 ha.2.2.1
    · rw [hmag]
      rfl

theorem token_0x_decimal_aux (x : Char) (hx : x = 'x' ∨ x = 'X') (ds : List Char)
    (hne : ds ≠ []) (hd : ∀ c ∈ ds, (decDigitVal c).isSome = true) :
    tokenIntValue ('0' :: x :: ds) = some ((digitsVal decDigitVal 10 ds : Nat) : Int) := by
  have hns : ∀ c ∈ ds, pySpace c = false :=
    fun c hc => (decDigit_not_special c (hd c hc)).2.2.2.1
  simp only [tokenIntValue, normToken_0x x hx ds hns, hasHexLetter_digits ds hd,
    Bool.false_eq_true, if_false]
  exact pyInt_dec_of_digits ds hne hd

/-- C10: a token of the form `0x` (or `0X`) followed only by decimal digits
has its prefix stripped and the remaining digits parsed as decimal, so for
example `0x10` yields the value 10 rather than the hexadecimal value 16. -/
theorem token_0x_prefix_is_decimal (ds : List Char) (hne : ds ≠ [])
    (hd : ∀ c ∈ ds, (decDigitVal c).isSome = true) :
    tokenIntValue ('0' :: 'x' :: ds) = some ((digitsVal decDigitVal 10 ds : Nat) : Int) ∧
    tokenIntValue ('0' :: 'X' :: ds) = some ((digitsVal decDigitVal 10 ds : Nat) : Int) :=
  ⟨token_0x_decimal_aux 'x' (Or.inl rfl) ds hne hd,
    token_0x_decimal_aux 'X' (Or.inr rfl) ds hne hd⟩

theorem token_0x_prefix_is_decimal_witness :
    (['1', '0'] : List Char) ≠ [] ∧
    (∀ c ∈ (['1', '0'] : List Char), (decDigitVal c).isSome = true) ∧
    tokenIntValue ['0', 'x', '1', '0'] = some 10 ∧ (10 : Int) ≠ 16 := by
  refine ⟨by decide, by decide, ?_, by decide⟩
  have h := (token_0x_prefix_is_decimal ['1', '0'] (by decide) (by decide)).1
  rw [h]
  decide
